import Mathlib

/-!
# Shallow embedding of `territory.py` (TerritoryGame)

This file embeds the simulation core of `src/territory.py`:

* `TerritoryManager` (the territory/warp ledger),
* the four `RandomWalker` agent variants (`NormalAgent`, `DoubleStepAgent`,
  `TerritoryExpanderAgent`, `RandomTeleportAgent`),
* the `RandomWalkModel` construction and its `step` loop.

The mesa library pieces the program relies on are embedded from mesa's
semantics:

* `MultiGrid(width, height, True)` — note the third positional argument:
  the grid is a **torus**; `get_neighborhood` wraps coordinates with
  `% width` / `% height` and deduplicates, it never clips.
* `RandomActivation.step` — shuffles the agent key list with
  `random.shuffle` (a Fisher–Yates walk from the top index down) before
  activating the agents one by one.
* `DataCollector.collect` — records every agent's current `territory`
  (in agent creation order) before any agent of the step moves.

Randomness is embedded as an oracle: a stream `σ : ℕ → ℕ` of draws plus a
cursor that every random primitive advances.  `randrange n` reads one value
and reduces it `% n`; `choice` picks the indexed element of a list;
`random.random() < 0.7` is embedded as a draw tested `% 10 < 7` (the exact
bias is irrelevant to every claim, only that both branches are reachable).
The Python process interleaves the module-level `random` stream and the
model's own `random.Random` instance (itself seeded from the former) in a
fixed program order, so a single stream represents a whole run.

Per-cell occupancy bookkeeping of `MultiGrid` is not modelled: an agent's
position is part of its state, and no claim observes the occupancy maps.
-/

namespace TerritoryGame

/-- A grid cell, `(x, y)` with `0 ≤ x < width`, `0 ≤ y < height`. -/
abbrev Cell : Type := ℕ × ℕ

/-- The oracle stream of random draws. -/
abbrev RStream : Type := ℕ → ℕ

/-- `random.randrange(n)`: one draw reduced into `[0, n)`. -/
def randrange (n v : ℕ) : ℕ := v % n

/-- `random.choice(l)`: pick the element indexed by a draw (lists fed to it
by the program are never empty; the default is irrelevant). -/
def choice (l : List Cell) (v : ℕ) : Cell := l.getD (v % l.length) (0, 0)

/-! ## mesa `MultiGrid` with `torus=True` -/

/-- `Grid.torus_adj`: wrap a coordinate onto the torus. -/
def torus_adj (w h : ℕ) (p : ℤ × ℤ) : Cell :=
  ((p.1 % (w : ℤ)).toNat, (p.2 % (h : ℤ)).toNat)

/-- Offsets scanned by `iter_neighborhood` for `moore=True`,
`include_center=False`, `radius=1`, in loop order (`dy` outer). -/
def mooreOffsets : List (ℤ × ℤ) :=
  [(-1, -1), (0, -1), (1, -1), (-1, 0), (1, 0), (-1, 1), (0, 1), (1, 1)]

/-- Offsets kept for `moore=False` (von Neumann: `|dx| + |dy| ≤ 1`). -/
def vnOffsets : List (ℤ × ℤ) := [(0, -1), (-1, 0), (1, 0), (0, 1)]

/-- `MultiGrid.get_neighborhood(pos, moore, include_center=False)` on the
torus grid: wrap every offset around `pos`, deduplicate. -/
def get_neighborhood (w h : ℕ) (pos : Cell) (moore : Bool) : List Cell :=
  ((if moore then mooreOffsets else vnOffsets).map
    (fun d => torus_adj w h ((pos.1 : ℤ) + d.1, (pos.2 : ℤ) + d.2))).dedup

/-! ## `TerritoryManager` -/

/-- `TerritoryManager`: `territory_map` is the ownership dict, embedded as
an association list whose *head* is the most recent write (Python dict
assignment overwrites; lookups would take the first hit). -/
structure TerritoryManager where
  width : ℕ
  height : ℕ
  territory_map : List (Cell × ℕ)
  warp_panels : Finset Cell
deriving DecidableEq

/-- `TerritoryManager.add_to_territory`: `territory_map[pos] = agent_id`. -/
def TerritoryManager.add_to_territory (tm : TerritoryManager) (pos : Cell)
    (agent_id : ℕ) : TerritoryManager :=
  { tm with territory_map := (pos, agent_id) :: tm.territory_map }

/-- `TerritoryManager.is_warp_panel`. -/
def TerritoryManager.is_warp_panel (tm : TerritoryManager) (pos : Cell) : Bool :=
  decide (pos ∈ tm.warp_panels)

/-- The keys of the ownership mapping (cells that have ever been claimed). -/
def tmKeys (tm : TerritoryManager) : List Cell :=
  tm.territory_map.map Prod.fst

/-- The retry loop of `TerritoryManager.initialize_warp_panels`:
`while len(warp_panels) < num_panels: add (randrange(w), randrange(h))`.
Each iteration consumes two draws.  The loop is given fuel; `none` means
the fuel ran out before the target size was reached. -/
def init_warp_panels (w h n : ℕ) (σ : RStream) :
    ℕ → Finset Cell → ℕ → Option (Finset Cell × ℕ)
  | 0, s, i => if n ≤ s.card then some (s, i) else none
  | fuel + 1, s, i =>
    if n ≤ s.card then some (s, i)
    else
      init_warp_panels w h n σ fuel
        (insert (randrange w (σ i), randrange h (σ (i + 1))) s) (i + 2)

/-! ## Agents -/

/-- The four behavior variants of `RandomWalker`. -/
inductive AgentKind : Type
  | normal
  | doubleStep
  | expander
  | teleport
deriving DecidableEq

/-- Per-agent state: `unique_id`, variant, current position (held by the
grid in the source), `territory`, and `move_counter` (only used by the
three counter-gated variants; `NormalAgent` never touches it). -/
structure AgentState where
  unique_id : ℕ
  kind : AgentKind
  pos : Cell
  territory : Finset Cell
  move_counter : ℕ
deriving DecidableEq

/-- Lines 52–55 / 71–74 / 107–110 of the source: move the agent, and unless
the destination is a warp panel, add it to the agent's territory and to the
ledger. -/
def claim_if_not_warp (a : AgentState) (tm : TerritoryManager)
    (newPos : Cell) : AgentState × TerritoryManager :=
  if newPos ∈ tm.warp_panels then ({ a with pos := newPos }, tm)
  else
    ({ a with pos := newPos, territory := insert newPos a.territory },
      tm.add_to_territory newPos a.unique_id)

/-- `NormalAgent.random_move`. -/
def normal_random_move (σ : RStream) (a : AgentState) (tm : TerritoryManager)
    (i : ℕ) : AgentState × TerritoryManager × ℕ :=
  let possible := get_neighborhood tm.width tm.height a.pos true
  let newPos := choice possible (σ i)
  let r := claim_if_not_warp a tm newPos
  (r.1, r.2, i + 1)

/-- `DoubleStepAgent.random_move`: counter gate `% 6`, then one step, then
with probability 0.7 (one draw from the module-level stream) a second step
from the first destination's neighborhood; claims only the final cell. -/
def double_random_move (σ : RStream) (a : AgentState) (tm : TerritoryManager)
    (i : ℕ) : AgentState × TerritoryManager × ℕ :=
  let a := { a with move_counter := a.move_counter + 1 }
  if a.move_counter % 6 = 0 then (a, tm, i)
  else
    let p1 := choice (get_neighborhood tm.width tm.height a.pos true) (σ i)
    if σ (i + 1) % 10 < 7 then
      let p2 := choice (get_neighborhood tm.width tm.height p1 true) (σ (i + 2))
      let r := claim_if_not_warp a tm p2
      (r.1, r.2, i + 3)
    else
      let r := claim_if_not_warp a tm p1
      (r.1, r.2, i + 2)

/-- `TerritoryExpanderAgent.random_move`: counter gate `% 3`; otherwise one
step; if the destination is not a warp panel, claim it and then every cell
of its 4-connected neighborhood — each neighbor is added to territory and
ledger with **no** individual warp check. -/
def expander_random_move (σ : RStream) (a : AgentState)
    (tm : TerritoryManager) (i : ℕ) : AgentState × TerritoryManager × ℕ :=
  let a := { a with move_counter := a.move_counter + 1 }
  if a.move_counter % 3 = 0 then (a, tm, i)
  else
    let newPos := choice (get_neighborhood tm.width tm.height a.pos true) (σ i)
    if newPos ∈ tm.warp_panels then ({ a with pos := newPos }, tm, i + 1)
    else
      let nbrs := get_neighborhood tm.width tm.height newPos false
      let terr := nbrs.foldl (fun t c => insert c t) (insert newPos a.territory)
      let tm2 := nbrs.foldl (fun m c => m.add_to_territory c a.unique_id)
        (tm.add_to_territory newPos a.unique_id)
      ({ a with pos := newPos, territory := terr }, tm2, i + 1)

/-- `RandomTeleportAgent.random_move`: every 5th turn it computes a teleport
candidate (two draws) — which the next line immediately overwrites, exactly
as in the source — then always takes one ordinary step and claims. -/
def teleport_random_move (σ : RStream) (a : AgentState)
    (tm : TerritoryManager) (i : ℕ) : AgentState × TerritoryManager × ℕ :=
  let a := { a with move_counter := a.move_counter + 1 }
  if a.move_counter % 5 = 0 then
    let newPos := (randrange tm.width (σ i), randrange tm.height (σ (i + 1)))
    let newPos := choice (get_neighborhood tm.width tm.height a.pos true) (σ (i + 2))
    let r := claim_if_not_warp a tm newPos
    (r.1, r.2, i + 3)
  else
    normal_random_move σ a tm i

/-- Dispatch of `random_move` on the variant (Python virtual call). -/
def random_move (σ : RStream) (a : AgentState) (tm : TerritoryManager)
    (i : ℕ) : AgentState × TerritoryManager × ℕ :=
  match a.kind with
  | .normal => normal_random_move σ a tm i
  | .doubleStep => double_random_move σ a tm i
  | .expander => expander_random_move σ a tm i
  | .teleport => teleport_random_move σ a tm i

/-! ## Scheduler (`mesa.time.RandomActivation`) -/

/-- Swap two positions of a list (no-op when an index is out of range),
the primitive step of `random.shuffle`. -/
def listSwap (l : List ℕ) (i j : ℕ) : List ℕ :=
  match l[i]?, l[j]? with
  | some a, some b => (l.set i b).set j a
  | _, _ => l

/-- `random.shuffle` walks indices `len-1, …, 1`; at index `k` it draws
`j = randbelow (k+1)` and swaps positions `k` and `j`. -/
def shuffleAux (σ : RStream) : ℕ → List ℕ → ℕ → List ℕ × ℕ
  | 0, l, i => (l, i)
  | k + 1, l, i => shuffleAux σ k (listSwap l (k + 1) (σ i % (k + 2))) (i + 1)

/-- `random.shuffle(l)` (fresh draws each call). -/
def shuffle (σ : RStream) (l : List ℕ) (i : ℕ) : List ℕ × ℕ :=
  shuffleAux σ (l.length - 1) l i

/-- The whole model state: the agents in creation order plus the ledger. -/
structure ModelState where
  agents : List AgentState
  tm : TerritoryManager
deriving DecidableEq

/-- Activate the agent stored at position `k` (agent keys are their
creation indices): run its `random_move`, write back its state and the
ledger. -/
def activateOne (σ : RStream) (st : ModelState) (k : ℕ) (i : ℕ) :
    ModelState × ℕ :=
  match st.agents[k]? with
  | none => (st, i)
  | some a =>
    let r := random_move σ a st.tm i
    (⟨st.agents.set k r.1, r.2.1⟩, r.2.2)

/-- `RandomActivation.step`: shuffle the key list, then activate each agent
in the shuffled order.  Also returns the order actually used. -/
def schedule_step (σ : RStream) (st : ModelState) (i : ℕ) :
    ModelState × List ℕ × ℕ :=
  let s := shuffle σ (List.range st.agents.length) i
  let r := s.1.foldl (fun acc k => activateOne σ acc.1 k acc.2) (st, s.2)
  (r.1, s.1, r.2)

/-- `DataCollector.collect`: every agent's `(unique_id, territory)`, taken
in creation order before any agent of the step moves. -/
def snapshot (st : ModelState) : List (ℕ × Finset Cell) :=
  st.agents.map (fun a => (a.unique_id, a.territory))

/-- A running simulation: model state, the per-step pre-move snapshots, the
activation orders used so far, and the stream cursor. -/
structure RunState where
  model : ModelState
  history : List (List (ℕ × Finset Cell))
  orders : List (List ℕ)
  idx : ℕ
deriving DecidableEq

/-- `RandomWalkModel.step`: `datacollector.collect(self)` then
`schedule.step()`. -/
def run_step (σ : RStream) (rs : RunState) : RunState :=
  let r := schedule_step σ rs.model rs.idx
  ⟨r.1, rs.history ++ [snapshot rs.model], rs.orders ++ [r.2.1], r.2.2⟩

/-- Iterate `model.step()`. -/
def run_steps (σ : RStream) (rs : RunState) : ℕ → RunState
  | 0 => rs
  | n + 1 => run_steps σ (run_step σ rs) n

/-- The construction parameters of `RandomWalkModel`. -/
structure Config where
  width : ℕ
  height : ℕ
  numAgents : ℕ
  numWarpPanels : ℕ

/-- One iteration of the agent-creation loop (lines 125–132): draw the
variant (`random.choice` over the four classes, in source order), draw the
starting cell, place the agent, and record the starting cell in the ledger
— with **no** warp check and **no** insertion into the agent's own
`territory` set, which starts empty. -/
def createAgent (σ : RStream) (acc : ModelState × ℕ) (k : ℕ) :
    ModelState × ℕ :=
  let kind := [AgentKind.normal, .doubleStep, .expander, .teleport].getD
    (σ acc.2 % 4) .normal
  let x := randrange acc.1.tm.width (σ (acc.2 + 1))
  let y := randrange acc.1.tm.height (σ (acc.2 + 2))
  (⟨acc.1.agents ++ [⟨k, kind, (x, y), ∅, 0⟩],
      acc.1.tm.add_to_territory (x, y) k⟩,
    acc.2 + 3)

/-- `RandomWalkModel.__init__`: build the ledger, run the warp-panel retry
loop (fuelled), then create the agents.  `none` only when the warp loop's
fuel runs out. -/
def init_run (σ : RStream) (fuel : ℕ) (cfg : Config) : Option RunState :=
  (init_warp_panels cfg.width cfg.height cfg.numWarpPanels σ fuel ∅ 0).map
    (fun wi =>
      let r := (List.range cfg.numAgents).foldl (createAgent σ)
        (⟨[], ⟨cfg.width, cfg.height, [], wi.1⟩⟩, wi.2)
      ⟨r.1, [], [], r.2⟩)

/-- A full run: construction followed by `n` calls of `model.step()`. -/
def full_run (σ : RStream) (fuel : ℕ) (cfg : Config) (n : ℕ) :
    Option RunState :=
  (init_run σ fuel cfg).map (fun rs => run_steps σ rs n)

/-! ## Derived definitions used by the claims -/

/-- Plane (non-wrapping) 4-connected adjacency of two cells. -/
def planeAdj4 (p q : Cell) : Prop :=
  (q.1 = p.1 ∧ (q.2 = p.2 + 1 ∨ q.2 + 1 = p.2)) ∨
    (q.2 = p.2 ∧ (q.1 = p.1 + 1 ∨ q.1 + 1 = p.1))

/-- The destination an expander turn draws (when it moves at all). -/
def expanderDest (σ : RStream) (a : AgentState) (tm : TerritoryManager)
    (i : ℕ) : Cell :=
  choice (get_neighborhood tm.width tm.height a.pos true) (σ i)

/-- The set of cells produced by `len` consecutive two-draw samples of the
warp-panel loop, starting at draw pair `j`. -/
def drawsFrom (w h : ℕ) (σ : RStream) (j : ℕ) : ℕ → Finset Cell
  | 0 => ∅
  | len + 1 =>
    insert (randrange w (σ (2 * j)), randrange h (σ (2 * j + 1)))
      (drawsFrom w h σ (j + 1) len)

/-- The position of the first agent after `k` steps (used for single-agent
runs). -/
def nthAgentPos (σ : RStream) (rs : RunState) (k : ℕ) : Cell :=
  ((run_steps σ rs k).model.agents.map AgentState.pos).headD (0, 0)

/-- The distinct cells a single agent has moved to during steps `1..k`. -/
def visitedCells (σ : RStream) (rs : RunState) : ℕ → Finset Cell
  | 0 => ∅
  | k + 1 => insert (nthAgentPos σ rs (k + 1)) (visitedCells σ rs k)

/-- What one agent turn does to the shared state, as observed by the
invariants: identity and variant are stable, the agent's territory only
grows, the ledger's dimensions and warp set are untouched, the ownership
map is only prepended to, and territory additions are backed by ownership
writes. -/
def moveOK (a a' : AgentState) (tm tm' : TerritoryManager) : Prop :=
  a'.unique_id = a.unique_id ∧ a'.kind = a.kind ∧
  a.territory ⊆ a'.territory ∧
  tm'.width = tm.width ∧ tm'.height = tm.height ∧
  tm'.warp_panels = tm.warp_panels ∧
  (∃ pre : List (Cell × ℕ), tm'.territory_map = pre ++ tm.territory_map) ∧
  (∀ c ∈ a'.territory, c ∈ a.territory ∨ c ∈ tmKeys tm')

/-- Pointwise evolution of the agent list across a step: same length, and
each slot keeps its identity and variant while its territory grows. -/
def agentsLE (l1 l2 : List AgentState) : Prop :=
  l1.length = l2.length ∧ ∀ (j : ℕ) (a b : AgentState),
    l1[j]? = some a → l2[j]? = some b →
    a.unique_id = b.unique_id ∧ a.kind = b.kind ∧ a.territory ⊆ b.territory

/-- Evolution of the whole model state across (part of) a step. -/
def stateLE (st st' : ModelState) : Prop :=
  agentsLE st.agents st'.agents ∧
  st'.tm.width = st.tm.width ∧ st'.tm.height = st.tm.height ∧
  st'.tm.warp_panels = st.tm.warp_panels ∧
  (∃ pre : List (Cell × ℕ), st'.tm.territory_map = pre ++ st.tm.territory_map)

/-- Snapshot evolution: same agents (by id), territories only grow. -/
def snapLE (s1 s2 : List (ℕ × Finset Cell)) : Prop :=
  s1.length = s2.length ∧ ∀ (j : ℕ) (a b : ℕ × Finset Cell),
    s1[j]? = some a → s2[j]? = some b → a.1 = b.1 ∧ a.2 ⊆ b.2

/-- The recorded snapshots, followed by the snapshot the next step would
record, form a `snapLE`-chain. -/
def HistChain (rs : RunState) : Prop :=
  List.Chain' snapLE (rs.history ++ [snapshot rs.model])

/-- Every claimed cell of every agent is an ownership key. -/
def InvTT (st : ModelState) : Prop :=
  ∀ a ∈ st.agents, ∀ c ∈ a.territory, c ∈ tmKeys st.tm

/-! ## Concrete streams, configurations and runs used as test inputs -/

/-- The all-zeros draw stream. -/
def exStream0 : RStream := fun _ => 0

/-- A 1×1 grid, one agent, no warp panels. -/
def exCfg1 : Config := ⟨1, 1, 1, 0⟩

/-- A 1×1 grid, one agent, one warp panel (the agent starts on it). -/
def exCfgW : Config := ⟨1, 1, 1, 1⟩

/-- The run `full_run exStream0 1 exCfg1 1`, written out. -/
def exRun1 : RunState :=
  ⟨⟨[⟨0, .normal, (0, 0), {(0, 0)}, 0⟩], ⟨1, 1, [((0, 0), 0), ((0, 0), 0)], ∅⟩⟩,
    [[(0, ∅)]], [[0]], 4⟩

/-- The run `full_run exStream0 1 exCfg1 2`, written out. -/
def exRun2 : RunState :=
  ⟨⟨[⟨0, .normal, (0, 0), {(0, 0)}, 0⟩],
      ⟨1, 1, [((0, 0), 0), ((0, 0), 0), ((0, 0), 0)], ∅⟩⟩,
    [[(0, ∅)], [(0, {(0, 0)})]], [[0], [0]], 5⟩

/-- The state `init_run exStream0 1 exCfg1`, written out. -/
def exInit1 : RunState :=
  ⟨⟨[⟨0, .normal, (0, 0), ∅, 0⟩], ⟨1, 1, [((0, 0), 0)], ∅⟩⟩, [], [], 3⟩

/-- The state `init_run exStream0 1 exCfgW`, written out: the agent starts
on the unique (warp) cell, which is claimed in the ledger anyway, while
its own territory set starts empty. -/
def exInitW : RunState :=
  ⟨⟨[⟨0, .normal, (0, 0), ∅, 0⟩], ⟨1, 1, [((0, 0), 0)], {(0, 0)}⟩⟩, [], [], 5⟩

/-- Draw stream for the C2 counterexample run: warp panel `(1,0)`, one
expander agent starting at `(0,1)` whose first move lands on `(1,1)`. -/
def exStreamC2 : RStream := fun j => [1, 0, 2, 0, 1, 4].getD j 0

/-- 3×3 grid, one agent, one warp panel. -/
def exCfgC2 : Config := ⟨3, 3, 1, 1⟩

/-- Draw stream for the C7 witness: first draw picks index 4 of the Moore
neighborhood of `(0,1)` on a 3×3 grid, which is `(1,1)`. -/
def exStreamC7 : RStream := fun _ => 4

/-- An expander agent at `(0,1)` that has not moved yet. -/
def exAgentC7 : AgentState := ⟨0, .expander, (0, 1), ∅, 0⟩

/-- An empty 3×3 ledger. -/
def exTmC7 : TerritoryManager := ⟨3, 3, [], ∅⟩

/-- Draw stream for the C9 witness: the pairs enumerate all four cells of
a 2×2 grid. -/
def exStreamC9 : RStream := fun j => [0, 0, 0, 1, 1, 0, 1, 1].getD j 0

/-- A 3×3 grid with two agents and no warp panels (C3 counterexample). -/
def exCfgC3 : Config := ⟨3, 3, 2, 0⟩

/-- A fresh normal agent on a 1×1 grid (C2 witness). -/
def exAgentC2w : AgentState := ⟨0, .normal, (0, 0), ∅, 0⟩

/-- An empty 1×1 ledger (C2 witness). -/
def exTmC2w : TerritoryManager := ⟨1, 1, [], ∅⟩

/-! ## Lemmas about the torus neighborhood -/

theorem torus_adj_lt (w h : ℕ) (hw : 0 < w) (hh : 0 < h) (p : ℤ × ℤ) :
    (torus_adj w h p).1 < w ∧ (torus_adj w h p).2 < h := by
  unfold torus_adj
  have hw0 : ((w : ℤ)) ≠ 0 := by omega
  have hh0 : ((h : ℤ)) ≠ 0 := by omega
  have h1 := Int.emod_nonneg p.1 hw0
  have h2 := Int.emod_lt_of_pos p.1 (b := (w : ℤ)) (by omega)
  have h3 := Int.emod_nonneg p.2 hh0
  have h4 := Int.emod_lt_of_pos p.2 (b := (h : ℤ)) (by omega)
  constructor <;> simp only [] <;> omega

theorem emod_add_cancel {w x d1 d2 : ℤ} (hw : 3 ≤ w)
    (h1 : d1.natAbs ≤ 1) (h2 : d2.natAbs ≤ 1)
    (h : (x + d1) % w = (x + d2) % w) : d1 = d2 := by
  have hdvd : w ∣ (x + d2) - (x + d1) := Int.ModEq.dvd h
  have hdvd2 : w ∣ d2 - d1 := by
    have he : (x + d2) - (x + d1) = d2 - d1 := by ring
    rwa [he] at hdvd
  rcases eq_or_ne (d2 - d1) 0 with h0 | h0
  · omega
  · have hnat : w.natAbs ∣ (d2 - d1).natAbs := Int.natAbs_dvd_natAbs.mpr hdvd2
    have hle : w.natAbs ≤ (d2 - d1).natAbs :=
      Nat.le_of_dvd (by omega) hnat
    omega

theorem torus_adj_add_inj {w h : ℕ} (hw : 3 ≤ w) (hh : 3 ≤ h) (pos : Cell)
    {d1 d2 : ℤ × ℤ} (h1 : d1.1.natAbs ≤ 1 ∧ d1.2.natAbs ≤ 1)
    (h2 : d2.1.natAbs ≤ 1 ∧ d2.2.natAbs ≤ 1)
    (heq : torus_adj w h ((pos.1 : ℤ) + d1.1, (pos.2 : ℤ) + d1.2) =
      torus_adj w h ((pos.1 : ℤ) + d2.1, (pos.2 : ℤ) + d2.2)) : d1 = d2 := by
  unfold torus_adj at heq
  rw [Prod.ext_iff] at heq
  obtain ⟨hx, hy⟩ := heq
  simp only [] at hx hy
  have hw0 : ((w : ℤ)) ≠ 0 := by omega
  have hh0 : ((h : ℤ)) ≠ 0 := by omega
  have nx1 := Int.emod_nonneg ((pos.1 : ℤ) + d1.1) hw0
  have nx2 := Int.emod_nonneg ((pos.1 : ℤ) + d2.1) hw0
  have ny1 := Int.emod_nonneg ((pos.2 : ℤ) + d1.2) hh0
  have ny2 := Int.emod_nonneg ((pos.2 : ℤ) + d2.2) hh0
  have hx2 : ((pos.1 : ℤ) + d1.1) % w = ((pos.1 : ℤ) + d2.1) % w := by omega
  have hy2 : ((pos.2 : ℤ) + d1.2) % h = ((pos.2 : ℤ) + d2.2) % h := by omega
  exact Prod.ext (emod_add_cancel (by omega) h1.1 h2.1 hx2)
    (emod_add_cancel (by omega) h1.2 h2.2 hy2)

theorem get_neighborhood_eq_map {w h : ℕ} (hw : 3 ≤ w) (hh : 3 ≤ h)
    (pos : Cell) (m : Bool) :
    get_neighborhood w h pos m =
      ((if m then mooreOffsets else vnOffsets).map
        (fun d => torus_adj w h ((pos.1 : ℤ) + d.1, (pos.2 : ℤ) + d.2))) := by
  have hb : ∀ d ∈ (if m then mooreOffsets else vnOffsets),
      d.1.natAbs ≤ 1 ∧ d.2.natAbs ≤ 1 := by cases m <;> decide
  have hnd : (if m then mooreOffsets else vnOffsets).Nodup := by
    cases m <;> decide
  unfold get_neighborhood
  exact List.dedup_eq_self.mpr
    (List.Nodup.map_on
      (fun x hx y hy hf => torus_adj_add_inj hw hh pos (hb x hx) (hb y hy) hf)
      hnd)

theorem torus_adj_of_lt {w h : ℕ} {p : Cell} (hx : p.1 < w) (hy : p.2 < h) :
    torus_adj w h ((p.1 : ℤ), (p.2 : ℤ)) = p := by
  unfold torus_adj
  rw [Int.emod_eq_of_lt (by omega) (by omega), Int.emod_eq_of_lt (by omega) (by omega)]
  simp

theorem center_not_mem_neighborhood {w h : ℕ} (hw : 3 ≤ w) (hh : 3 ≤ h)
    {pos : Cell} (hx : pos.1 < w) (hy : pos.2 < h) (m : Bool) :
    pos ∉ get_neighborhood w h pos m := by
  intro hmem
  rw [get_neighborhood_eq_map hw hh, List.mem_map] at hmem
  obtain ⟨d, hd, hdeq⟩ := hmem
  have hb : ∀ e ∈ (if m then mooreOffsets else vnOffsets),
      e.1.natAbs ≤ 1 ∧ e.2.natAbs ≤ 1 := by cases m <;> decide
  have hzero : torus_adj w h ((pos.1 : ℤ) + (0 : ℤ), (pos.2 : ℤ) + (0 : ℤ)) = pos := by
    simpa using torus_adj_of_lt hx hy
  have : d = ((0 : ℤ), (0 : ℤ)) :=
    torus_adj_add_inj hw hh pos (hb d hd) (by simp) (hdeq.trans hzero.symm)
  subst this
  revert hd
  cases m <;> decide

theorem get_neighborhood_bounds (w h : ℕ) (hw : 0 < w) (hh : 0 < h)
    (pos : Cell) (m : Bool) :
    ∀ q ∈ get_neighborhood w h pos m, q.1 < w ∧ q.2 < h := by
  intro q hq
  unfold get_neighborhood at hq
  rw [List.mem_dedup, List.mem_map] at hq
  obtain ⟨d, _, rfl⟩ := hq
  exact torus_adj_lt w h hw hh _

/-- **C1, counterexample.**  The grid is created with `torus=True`
(line 116 of the source), so the neighborhood query wraps around: on a 3×3
grid the corner `(0,0)` has exactly as many Moore neighbors as the interior
cell `(1,1)` (not strictly fewer), and `(2,2)` — whose coordinates differ
from the corner's by 2 in each axis in the plane — is one of them. -/
theorem C1_counterexample :
    (2, 2) ∈ get_neighborhood 3 3 (0, 0) true ∧
    ¬ ((2 : ℤ) - 0 ≤ 1) ∧
    (get_neighborhood 3 3 (0, 0) true).length =
      (get_neighborhood 3 3 (1, 1) true).length := by decide

/-- **C1, amended.**  For every in-bounds cell of a grid with both
dimensions ≥ 3, the neighborhood query (Moore and von Neumann) excludes the
center cell, returns only in-bounds cells, each of which is torus-adjacent
to the queried cell (the wrap of an offset with both components in
`{-1,0,1}`); there is no clipping: every cell, edge or interior, has
exactly 8 Moore and exactly 4 von Neumann neighbors. -/
theorem C1_neighborhood_torus (w h : ℕ) (pos : Cell) (hw : 3 ≤ w)
    (hh : 3 ≤ h) (hx : pos.1 < w) (hy : pos.2 < h) :
    pos ∉ get_neighborhood w h pos true ∧
    pos ∉ get_neighborhood w h pos false ∧
    (∀ m : Bool, ∀ q ∈ get_neighborhood w h pos m, q.1 < w ∧ q.2 < h) ∧
    (∀ q ∈ get_neighborhood w h pos true, ∃ d ∈ mooreOffsets,
        q = torus_adj w h ((pos.1 : ℤ) + d.1, (pos.2 : ℤ) + d.2)) ∧
    (get_neighborhood w h pos true).length = 8 ∧
    (get_neighborhood w h pos false).length = 4 := by
  refine ⟨center_not_mem_neighborhood hw hh hx hy true,
    center_not_mem_neighborhood hw hh hx hy false,
    fun m => get_neighborhood_bounds w h (by omega) (by omega) pos m,
    ?_, ?_, ?_⟩
  · intro q hq
    rw [get_neighborhood_eq_map hw hh, List.mem_map] at hq
    obtain ⟨d, hd, rfl⟩ := hq
    exact ⟨d, by simpa using hd, rfl⟩
  · rw [get_neighborhood_eq_map hw hh]
    simp [mooreOffsets]
  · rw [get_neighborhood_eq_map hw hh]
    simp [vnOffsets]

/-- Witness for C1 (amended): the corner of a 3×3 grid. -/
theorem C1_witness :
    (3 : ℕ) ≤ 3 ∧ (0 : ℕ) < 3 ∧
    (get_neighborhood 3 3 (0, 0) true).length = 8 ∧
    (get_neighborhood 3 3 (0, 0) false).length = 4 ∧
    (0, 0) ∉ get_neighborhood 3 3 (0, 0) true :=
  have h := C1_neighborhood_torus 3 3 (0, 0) (by decide) (by decide)
    (by decide) (by decide)
  ⟨by decide, by decide, h.2.2.2.2.1, h.2.2.2.2.2, h.1⟩

/-! ## C6: the Teleporter variant acts exactly like the Standard one -/

/-- **C6.**  A Teleporter turn equals a Standard (`NormalAgent`) turn on
the same (counter-bumped) agent: the teleport candidate computed on every
5th turn is dead — it is overwritten before use, and its only trace is
that the two draws it consumed advance the stream cursor by 2.  Position,
territory and ledger updates are those of the Standard rule. -/
theorem C6_teleporter_is_standard (σ : RStream) (a : AgentState)
    (tm : TerritoryManager) (i : ℕ) :
    random_move σ { a with kind := .teleport } tm i =
      normal_random_move σ
        { a with kind := .teleport, move_counter := a.move_counter + 1 } tm
        (i + if (a.move_counter + 1) % 5 = 0 then 2 else 0) := by
  show teleport_random_move σ { a with kind := .teleport } tm i = _
  unfold teleport_random_move normal_random_move
  by_cases h5 : (a.move_counter + 1) % 5 = 0 <;> simp [h5]

/-! ## C7: the Expander variant -/

theorem choice_bounds (w h : ℕ) (hw : 0 < w) (hh : 0 < h) (pos : Cell)
    (m : Bool) (v : ℕ) :
    (choice (get_neighborhood w h pos m) v).1 < w ∧
      (choice (get_neighborhood w h pos m) v).2 < h := by
  rcases hl : get_neighborhood w h pos m with _ | ⟨c, l⟩
  · simp [choice, hl]
    exact ⟨hw, hh⟩
  · apply get_neighborhood_bounds w h hw hh pos m
    rw [hl]
    unfold choice
    rw [List.getD_eq_getElem?_getD]
    rw [List.getElem?_eq_getElem (by
      exact Nat.mod_lt _ (by simp [hl]))]
    exact List.getElem_mem _

theorem planeAdj4_mem_neighborhood {w h : ℕ} {p q : Cell}
    (hq1 : q.1 < w) (hq2 : q.2 < h)
    (hadj : planeAdj4 p q) : q ∈ get_neighborhood w h p false := by
  unfold get_neighborhood
  rw [List.mem_dedup, List.mem_map]
  have hq : torus_adj w h ((q.1 : ℤ), (q.2 : ℤ)) = q := torus_adj_of_lt hq1 hq2
  rcases hadj with ⟨hx, hy | hy⟩ | ⟨hy, hx | hx⟩
  · refine ⟨(0, 1), by decide, ?_⟩
    have he : ((p.1 : ℤ) + 0, (p.2 : ℤ) + 1) = ((q.1 : ℤ), (q.2 : ℤ)) := by
      rw [Prod.ext_iff]
      constructor <;> simp <;> omega
    rw [he, hq]
  · refine ⟨(0, -1), by decide, ?_⟩
    have he : ((p.1 : ℤ) + 0, (p.2 : ℤ) + (-1)) = ((q.1 : ℤ), (q.2 : ℤ)) := by
      rw [Prod.ext_iff]
      constructor <;> simp <;> omega
    rw [he, hq]
  · refine ⟨(1, 0), by decide, ?_⟩
    have he : ((p.1 : ℤ) + 1, (p.2 : ℤ) + 0) = ((q.1 : ℤ), (q.2 : ℤ)) := by
      rw [Prod.ext_iff]
      constructor <;> simp <;> omega

    rw [he, hq]
  · refine ⟨(-1, 0), by decide, ?_⟩
    have he : ((p.1 : ℤ) + (-1), (p.2 : ℤ) + 0) = ((q.1 : ℤ), (q.2 : ℤ)) := by
      rw [Prod.ext_iff]
      constructor <;> simp <;> omega
    rw [he, hq]

theorem mem_foldl_insert_of_mem {x : Cell} :
    ∀ (l : List Cell) (t : Finset Cell), x ∈ t →
      x ∈ l.foldl (fun t c => insert c t) t
  | [], _, hx => hx
  | c :: l, t, hx => by
    rw [List.foldl_cons]
    exact mem_foldl_insert_of_mem l _ (Finset.mem_insert_of_mem hx)

theorem mem_foldl_insert_of_mem_list {x : Cell} :
    ∀ (l : List Cell) (t : Finset Cell), x ∈ l →
      x ∈ l.foldl (fun t c => insert c t) t
  | [], _, hx => absurd hx (List.not_mem_nil x)
  | c :: l, t, hx => by
    rw [List.foldl_cons]
    rcases List.mem_cons.mp hx with rfl | hx
    · exact mem_foldl_insert_of_mem l _ (Finset.mem_insert_self _ _)
    · exact mem_foldl_insert_of_mem_list l _ hx

theorem mem_foldl_insert_elim {x : Cell} :
    ∀ (l : List Cell) (t : Finset Cell),
      x ∈ l.foldl (fun t c => insert c t) t → x ∈ t ∨ x ∈ l
  | [], _, hx => Or.inl hx
  | c :: l, t, hx => by
    rw [List.foldl_cons] at hx
    rcases mem_foldl_insert_elim l _ hx with h | h
    · rcases Finset.mem_insert.mp h with rfl | h
      · exact Or.inr (List.mem_cons_self _ _)
      · exact Or.inl h
    · exact Or.inr (List.mem_cons_of_mem _ h)

/-- Folding the per-neighbor ledger writes of the expander, in closed
form. -/
theorem foldl_add_to_territory (l : List Cell) (tm : TerritoryManager)
    (k : ℕ) :
    l.foldl (fun m c => m.add_to_territory c k) tm =
      ⟨tm.width, tm.height, (l.reverse.map (fun c => (c, k))) ++ tm.territory_map,
        tm.warp_panels⟩ := by
  induction l generalizing tm with
  | nil => rfl
  | cons c l ih =>
    rw [List.foldl_cons, ih]
    simp [TerritoryManager.add_to_territory]

/-- The skip branch of the expander (every 3rd turn): only the counter
changes. -/
theorem expander_move_skip (σ : RStream) (a : AgentState)
    (tm : TerritoryManager) (i : ℕ) (h3 : (a.move_counter + 1) % 3 = 0) :
    expander_random_move σ a tm i =
      ({ a with move_counter := a.move_counter + 1 }, tm, i) := by
  unfold expander_random_move
  simp [h3]

/-- The warp-destination branch of the expander: move, no claim. -/
theorem expander_move_warp (σ : RStream) (a : AgentState)
    (tm : TerritoryManager) (i : ℕ) (h3 : ¬(a.move_counter + 1) % 3 = 0)
    (hwarp : expanderDest σ a tm i ∈ tm.warp_panels) :
    expander_random_move σ a tm i =
      ({ a with move_counter := a.move_counter + 1, pos := expanderDest σ a tm i }, tm, i + 1) := by
  simp only [expander_random_move, expanderDest] at hwarp ⊢
  simp [h3, hwarp]

/-- The claiming branch of the expander: move, claim the destination and
every cell of its 4-connected neighborhood. -/
theorem expander_move_claim (σ : RStream) (a : AgentState)
    (tm : TerritoryManager) (i : ℕ) (h3 : ¬(a.move_counter + 1) % 3 = 0)
    (hwarp : expanderDest σ a tm i ∉ tm.warp_panels) :
    expander_random_move σ a tm i =
      ({ a with move_counter := a.move_counter + 1, pos := expanderDest σ a tm i, territory := (get_neighborhood tm.width tm.height (expanderDest σ a tm i) false).foldl (fun t c => insert c t) (insert (expanderDest σ a tm i) a.territory) },
        (get_neighborhood tm.width tm.height (expanderDest σ a tm i)
            false).foldl (fun m c => m.add_to_territory c a.unique_id)
          (tm.add_to_territory (expanderDest σ a tm i) a.unique_id),
        i + 1) := by
  simp only [expander_random_move, expanderDest] at hwarp ⊢
  simp [h3, hwarp]

/-- **C7.**  One Expander turn: the counter is always incremented; on every
3rd turn the turn is a complete no-op apart from the counter (no movement,
no claim); on other turns the agent moves to the drawn destination and, if
and only if the destination is not a warp cell, claims the destination and
the whole 4-connected neighborhood of the destination — in particular every
in-bounds plane 4-neighbor — with no individual warp check on neighbors. -/
theorem C7_expander_rule (σ : RStream) (a : AgentState)
    (tm : TerritoryManager) (i : ℕ) (hw : 0 < tm.width) (hh : 0 < tm.height) :
    ((expander_random_move σ a tm i).1.move_counter = a.move_counter + 1) ∧
    ((a.move_counter + 1) % 3 = 0 →
      expander_random_move σ a tm i =
        ({ a with move_counter := a.move_counter + 1 }, tm, i)) ∧
    ((a.move_counter + 1) % 3 ≠ 0 →
      (expander_random_move σ a tm i).1.pos = expanderDest σ a tm i ∧
      (expanderDest σ a tm i ∈ tm.warp_panels →
        (expander_random_move σ a tm i).1.territory = a.territory ∧
        (expander_random_move σ a tm i).2.1 = tm) ∧
      (expanderDest σ a tm i ∉ tm.warp_panels →
        ∀ q : Cell,
          (q = expanderDest σ a tm i ∨
            q ∈ get_neighborhood tm.width tm.height (expanderDest σ a tm i) false ∨
            (planeAdj4 (expanderDest σ a tm i) q ∧ q.1 < tm.width ∧ q.2 < tm.height)) →
          q ∈ (expander_random_move σ a tm i).1.territory ∧
          q ∈ tmKeys (expander_random_move σ a tm i).2.1)) := by
  refine ⟨?_, ?_, ?_⟩
  · by_cases h3 : (a.move_counter + 1) % 3 = 0
    · rw [expander_move_skip σ a tm i h3]
    · by_cases hwarp : expanderDest σ a tm i ∈ tm.warp_panels
      · rw [expander_move_warp σ a tm i h3 hwarp]
      · rw [expander_move_claim σ a tm i h3 hwarp]
  · intro h3
    rw [expander_move_skip σ a tm i h3]
  · intro h3
    refine ⟨?_, fun hw2 => ⟨?_, ?_⟩, fun hnw q hq => ⟨?_, ?_⟩⟩
    · by_cases hwarp : expanderDest σ a tm i ∈ tm.warp_panels
      · rw [expander_move_warp σ a tm i h3 hwarp]
      · rw [expander_move_claim σ a tm i h3 hwarp]
    · rw [expander_move_warp σ a tm i h3 hw2]
    · rw [expander_move_warp σ a tm i h3 hw2]
    · have hq2 : q = expanderDest σ a tm i ∨
          q ∈ get_neighborhood tm.width tm.height (expanderDest σ a tm i) false := by
        rcases hq with h | h | ⟨hadj, hb1, hb2⟩
        · exact Or.inl h
        · exact Or.inr h
        · exact Or.inr (planeAdj4_mem_neighborhood hb1 hb2 hadj)
      rw [expander_move_claim σ a tm i h3 hnw]
      rcases hq2 with rfl | h
      · exact mem_foldl_insert_of_mem _ _ (Finset.mem_insert_self _ _)
      · exact mem_foldl_insert_of_mem_list _ _ h
    · have hq2 : q = expanderDest σ a tm i ∨
          q ∈ get_neighborhood tm.width tm.height (expanderDest σ a tm i) false := by
        rcases hq with h | h | ⟨hadj, hb1, hb2⟩
        · exact Or.inl h
        · exact Or.inr h
        · exact Or.inr (planeAdj4_mem_neighborhood hb1 hb2 hadj)
      rw [expander_move_claim σ a tm i h3 hnw, foldl_add_to_territory]
      simp only [tmKeys, List.map_append, List.map_map, List.mem_append,
        List.mem_map]
      rcases hq2 with rfl | h
      · right
        simp [TerritoryManager.add_to_territory, tmKeys]
      · left
        exact ⟨q, by simpa using h, rfl⟩

/-- Witness for C7: on a 3×3 grid an expander at `(0,1)` whose first draw
sends it to the non-warp destination `(1,1)` claims `(1,1)` and all four of
`(0,1)`, `(2,1)`, `(1,0)`, `(1,2)`. -/
theorem C7_witness :
    expanderDest exStreamC7 exAgentC7 exTmC7 0 = (1, 1) ∧
    ((1, 1) ∈ (expander_random_move exStreamC7 exAgentC7 exTmC7 0).1.territory ∧
      (1, 1) ∈ tmKeys (expander_random_move exStreamC7 exAgentC7 exTmC7 0).2.1) ∧
    ((0, 1) ∈ (expander_random_move exStreamC7 exAgentC7 exTmC7 0).1.territory ∧
      (0, 1) ∈ tmKeys (expander_random_move exStreamC7 exAgentC7 exTmC7 0).2.1) ∧
    ((2, 1) ∈ (expander_random_move exStreamC7 exAgentC7 exTmC7 0).1.territory ∧
      (2, 1) ∈ tmKeys (expander_random_move exStreamC7 exAgentC7 exTmC7 0).2.1) ∧
    ((1, 0) ∈ (expander_random_move exStreamC7 exAgentC7 exTmC7 0).1.territory ∧
      (1, 0) ∈ tmKeys (expander_random_move exStreamC7 exAgentC7 exTmC7 0).2.1) ∧
    ((1, 2) ∈ (expander_random_move exStreamC7 exAgentC7 exTmC7 0).1.territory ∧
      (1, 2) ∈ tmKeys (expander_random_move exStreamC7 exAgentC7 exTmC7 0).2.1) := by
  have h := C7_expander_rule exStreamC7 exAgentC7 exTmC7 0 (by decide) (by decide)
  have h3 := h.2.2 (by decide)
  have hc := h3.2.2 (by decide)
  exact ⟨by decide,
    hc (1, 1) (Or.inl (by decide)),
    hc (0, 1) (Or.inr (Or.inl (by decide))),
    hc (2, 1) (Or.inr (Or.inl (by decide))),
    hc (1, 0) (Or.inr (Or.inl (by decide))),
    hc (1, 2) (Or.inr (Or.inl (by decide)))⟩

/-! ## Per-turn facts shared by the remaining claims -/

theorem tmKeys_add_to_territory (tm : TerritoryManager) (p : Cell) (k : ℕ) :
    tmKeys (tm.add_to_territory p k) = p :: tmKeys tm := rfl

theorem tmKeys_claim_if_not_warp (a : AgentState) (tm : TerritoryManager)
    (p : Cell) :
    tmKeys (claim_if_not_warp a tm p).2 =
      if p ∈ tm.warp_panels then tmKeys tm else p :: tmKeys tm := by
  unfold claim_if_not_warp
  by_cases hp : p ∈ tm.warp_panels <;>
    simp [hp, tmKeys, TerritoryManager.add_to_territory]

theorem claim_if_not_warp_moveOK (a : AgentState) (tm : TerritoryManager)
    (p : Cell) :
    moveOK a (claim_if_not_warp a tm p).1 tm (claim_if_not_warp a tm p).2 := by
  unfold claim_if_not_warp
  by_cases hp : p ∈ tm.warp_panels
  · simp only [hp, if_true, ite_true]
    exact ⟨rfl, rfl, subset_rfl, rfl, rfl, rfl, ⟨[], rfl⟩, fun c hc => Or.inl hc⟩
  · simp only [hp, if_false, ite_false]
    refine ⟨rfl, rfl, Finset.subset_insert _ _, rfl, rfl, rfl,
      ⟨[(p, a.unique_id)], rfl⟩, fun c hc => ?_⟩
    rcases Finset.mem_insert.mp hc with rfl | hc
    · right
      simp [tmKeys, TerritoryManager.add_to_territory]
    · exact Or.inl hc

theorem normal_random_move_moveOK (σ : RStream) (a : AgentState)
    (tm : TerritoryManager) (i : ℕ) :
    moveOK a (normal_random_move σ a tm i).1 tm
      (normal_random_move σ a tm i).2.1 :=
  claim_if_not_warp_moveOK a tm _

theorem double_random_move_moveOK (σ : RStream) (a : AgentState)
    (tm : TerritoryManager) (i : ℕ) :
    moveOK a (double_random_move σ a tm i).1 tm
      (double_random_move σ a tm i).2.1 := by
  unfold double_random_move
  by_cases h6 : (a.move_counter + 1) % 6 = 0
  · simp only [h6, if_true, ite_true]
    exact ⟨rfl, rfl, subset_rfl, rfl, rfl, rfl, ⟨[], rfl⟩, fun c hc => Or.inl hc⟩
  · simp only [h6, if_false, ite_false]
    by_cases h7 : σ (i + 1) % 10 < 7
    · simp only [h7, if_true, ite_true]
      exact claim_if_not_warp_moveOK { a with move_counter := a.move_counter + 1 } tm _
    · simp only [h7, if_false, ite_false]
      exact claim_if_not_warp_moveOK { a with move_counter := a.move_counter + 1 } tm _

theorem expander_random_move_moveOK (σ : RStream) (a : AgentState)
    (tm : TerritoryManager) (i : ℕ) :
    moveOK a (expander_random_move σ a tm i).1 tm
      (expander_random_move σ a tm i).2.1 := by
  by_cases h3 : (a.move_counter + 1) % 3 = 0
  · rw [expander_move_skip σ a tm i h3]
    exact ⟨rfl, rfl, subset_rfl, rfl, rfl, rfl, ⟨[], rfl⟩, fun c hc => Or.inl hc⟩
  · by_cases hwarp : expanderDest σ a tm i ∈ tm.warp_panels
    · rw [expander_move_warp σ a tm i h3 hwarp]
      exact ⟨rfl, rfl, subset_rfl, rfl, rfl, rfl, ⟨[], rfl⟩, fun c hc => Or.inl hc⟩
    · rw [expander_move_claim σ a tm i h3 hwarp, foldl_add_to_territory]
      refine ⟨rfl, rfl,
        fun c hc => mem_foldl_insert_of_mem _ _ (Finset.mem_insert_of_mem hc),
        rfl, rfl, rfl,
        ⟨((get_neighborhood tm.width tm.height (expanderDest σ a tm i)
            false).reverse.map (fun c => (c, a.unique_id))) ++
          [(expanderDest σ a tm i, a.unique_id)], by
            simp [TerritoryManager.add_to_territory]⟩,
        fun c hc => ?_⟩
      rcases mem_foldl_insert_elim _ _ hc with hmem | hmem
      · rcases Finset.mem_insert.mp hmem with rfl | hmem
        · right
          simp [tmKeys, TerritoryManager.add_to_territory]
        · exact Or.inl hmem
      · right
        simp only [tmKeys, TerritoryManager.add_to_territory, List.map_append,
          List.map_map, List.mem_append, List.mem_map]
        left
        exact ⟨c, by simpa using hmem, rfl⟩

theorem teleport_random_move_moveOK (σ : RStream) (a : AgentState)
    (tm : TerritoryManager) (i : ℕ) :
    moveOK a (teleport_random_move σ a tm i).1 tm
      (teleport_random_move σ a tm i).2.1 := by
  unfold teleport_random_move
  by_cases h5 : (a.move_counter + 1) % 5 = 0
  · simp only [h5, if_true, ite_true]
    exact claim_if_not_warp_moveOK { a with move_counter := a.move_counter + 1 } tm _
  · simp only [h5, if_false, ite_false]
    exact normal_random_move_moveOK σ { a with move_counter := a.move_counter + 1 } tm i

theorem random_move_moveOK (σ : RStream) (a : AgentState)
    (tm : TerritoryManager) (i : ℕ) :
    moveOK a (random_move σ a tm i).1 tm (random_move σ a tm i).2.1 := by
  rcases hk : a.kind
  all_goals simp only [random_move, hk]
  · exact normal_random_move_moveOK σ a tm i
  · exact double_random_move_moveOK σ a tm i
  · exact expander_random_move_moveOK σ a tm i
  · exact teleport_random_move_moveOK σ a tm i

theorem moveOK_keys_subset {a a' : AgentState} {tm tm' : TerritoryManager}
    (h : moveOK a a' tm tm') : ∀ c ∈ tmKeys tm, c ∈ tmKeys tm' := by
  obtain ⟨-, -, -, -, -, -, ⟨pre, hpre⟩, -⟩ := h
  intro c hc
  simp only [tmKeys, hpre, List.map_append, List.mem_append]
  exact Or.inr hc

/-! ## State evolution across a step -/

theorem agentsLE_refl (l : List AgentState) : agentsLE l l :=
  ⟨rfl, fun _ a b ha hb => by
    rw [ha] at hb
    cases hb
    exact ⟨rfl, rfl, subset_rfl⟩⟩

theorem agentsLE_trans {l1 l2 l3 : List AgentState} (h12 : agentsLE l1 l2)
    (h23 : agentsLE l2 l3) : agentsLE l1 l3 := by
  refine ⟨h12.1.trans h23.1, fun j a b ha hb => ?_⟩
  obtain ⟨hj1, -⟩ := List.getElem?_eq_some_iff.mp ha
  have hj2 : j < l2.length := h12.1 ▸ hj1
  have hm : l2[j]? = some (l2.get ⟨j, hj2⟩) := List.getElem?_eq_getElem hj2
  obtain ⟨e1, e2, e3⟩ := h12.2 j a _ ha hm
  obtain ⟨f1, f2, f3⟩ := h23.2 j _ b hm hb
  exact ⟨e1.trans f1, e2.trans f2, e3.trans f3⟩

theorem stateLE_refl (st : ModelState) : stateLE st st :=
  ⟨agentsLE_refl _, rfl, rfl, rfl, ⟨[], rfl⟩⟩

theorem stateLE_trans {s1 s2 s3 : ModelState} (h12 : stateLE s1 s2)
    (h23 : stateLE s2 s3) : stateLE s1 s3 := by
  obtain ⟨a12, w12, h12e, p12, ⟨pre12, hpre12⟩⟩ := h12
  obtain ⟨a23, w23, h23e, p23, ⟨pre23, hpre23⟩⟩ := h23
  exact ⟨agentsLE_trans a12 a23, w23.trans w12, h23e.trans h12e,
    p23.trans p12, ⟨pre23 ++ pre12, by rw [hpre23, hpre12, List.append_assoc]⟩⟩

theorem activateOne_stateLE (σ : RStream) (st : ModelState) (k i : ℕ) :
    stateLE st (activateOne σ st k i).1 := by
  unfold activateOne
  rcases hk : st.agents[k]? with - | a
  · exact stateLE_refl st
  · obtain ⟨m1, m2, m3, m4, m5, m6, m7, -⟩ := random_move_moveOK σ a st.tm i
    refine ⟨⟨(List.length_set _ _ _).symm, fun j x y hx hy => ?_⟩,
      m4, m5, m6, m7⟩
    rcases eq_or_ne k j with rfl | hne
    · rw [List.getElem?_set_self (by
        obtain ⟨hj, -⟩ := List.getElem?_eq_some_iff.mp hx
        exact hj)] at hy
      cases hy
      rw [hk] at hx
      cases hx
      exact ⟨m1.symm, m2.symm, m3⟩
    · rw [List.getElem?_set_ne hne] at hy
      rw [hx] at hy
      cases hy
      exact ⟨rfl, rfl, subset_rfl⟩

theorem foldl_activate_stateLE (σ : RStream) :
    ∀ (ks : List ℕ) (p : ModelState × ℕ),
      stateLE p.1 ((ks.foldl (fun acc k => activateOne σ acc.1 k acc.2) p).1)
  | [], p => stateLE_refl p.1
  | k :: ks, p => by
    rw [List.foldl_cons]
    exact stateLE_trans (activateOne_stateLE σ p.1 k p.2)
      (foldl_activate_stateLE σ ks _)

theorem schedule_step_stateLE (σ : RStream) (st : ModelState) (i : ℕ) :
    stateLE st (schedule_step σ st i).1 :=
  foldl_activate_stateLE σ (shuffle σ (List.range st.agents.length) i).1
    (st, (shuffle σ (List.range st.agents.length) i).2)

theorem run_step_stateLE (σ : RStream) (rs : RunState) :
    stateLE rs.model (run_step σ rs).model :=
  schedule_step_stateLE σ rs.model rs.idx

theorem run_steps_stateLE (σ : RStream) :
    ∀ (n : ℕ) (rs : RunState), stateLE rs.model (run_steps σ rs n).model
  | 0, rs => stateLE_refl rs.model
  | n + 1, rs =>
    stateLE_trans (run_step_stateLE σ rs) (run_steps_stateLE σ n (run_step σ rs))

/-! ## The territory-in-ownership invariant (C10) -/

theorem activateOne_InvTT (σ : RStream) (st : ModelState) (k i : ℕ)
    (hinv : InvTT st) : InvTT (activateOne σ st k i).1 := by
  unfold activateOne
  rcases hk : st.agents[k]? with - | a
  · exact hinv
  · have hmo := random_move_moveOK σ a st.tm i
    have m8 := hmo.2.2.2.2.2.2.2
    have hamem : a ∈ st.agents := by
      obtain ⟨hj, he⟩ := List.getElem?_eq_some_iff.mp hk
      exact he ▸ List.getElem_mem hj
    intro b hb c hc
    rcases List.mem_or_eq_of_mem_set hb with hbold | rfl
    · exact moveOK_keys_subset hmo c (hinv b hbold c hc)
    · rcases m8 c hc with hold | hnew
      · exact moveOK_keys_subset hmo c (hinv a hamem c hold)
      · exact hnew

theorem foldl_activate_InvTT (σ : RStream) :
    ∀ (ks : List ℕ) (p : ModelState × ℕ), InvTT p.1 →
      InvTT ((ks.foldl (fun acc k => activateOne σ acc.1 k acc.2) p).1)
  | [], _, hinv => hinv
  | k :: ks, p, hinv => by
    rw [List.foldl_cons]
    exact foldl_activate_InvTT σ ks _ (activateOne_InvTT σ p.1 k p.2 hinv)

theorem run_steps_InvTT (σ : RStream) :
    ∀ (n : ℕ) (rs : RunState), InvTT rs.model →
      InvTT (run_steps σ rs n).model
  | 0, _, hinv => hinv
  | n + 1, rs, hinv =>
    run_steps_InvTT σ n (run_step σ rs)
      (foldl_activate_InvTT σ _ _ hinv)

theorem createAgent_foldl_agents (σ : RStream) :
    ∀ (l : List ℕ) (acc : ModelState × ℕ),
      (∀ a ∈ acc.1.agents, a.territory = ∅ ∧ a.pos ∈ tmKeys acc.1.tm) →
      ∀ a ∈ (l.foldl (createAgent σ) acc).1.agents,
        a.territory = ∅ ∧ a.pos ∈ tmKeys (l.foldl (createAgent σ) acc).1.tm
  | [], _, hbase => hbase
  | k :: l, acc, hbase => by
    rw [List.foldl_cons]
    refine createAgent_foldl_agents σ l _ (fun a ha => ?_)
    unfold createAgent at ha ⊢
    rcases List.mem_append.mp ha with hold | hnew
    · obtain ⟨h1, h2⟩ := hbase a hold
      exact ⟨h1, List.mem_cons_of_mem _ h2⟩
    · rcases List.mem_singleton.mp hnew with rfl
      exact ⟨rfl, List.mem_cons_self _ _⟩

theorem init_run_agents (σ : RStream) (fuel : ℕ) (cfg : Config)
    (rs : RunState) (h : init_run σ fuel cfg = some rs) :
    ∀ a ∈ rs.model.agents, a.territory = ∅ ∧ a.pos ∈ tmKeys rs.model.tm := by
  unfold init_run at h
  rcases hw : init_warp_panels cfg.width cfg.height cfg.numWarpPanels σ fuel ∅ 0
    with - | ⟨warp, j⟩
  · rw [hw] at h
    cases h
  · rw [hw] at h
    simp only [Option.map_some', Option.some.injEq] at h
    subst h
    exact createAgent_foldl_agents σ _ _ (by intro a ha; cases ha)

theorem init_run_InvTT (σ : RStream) (fuel : ℕ) (cfg : Config)
    (rs : RunState) (h : init_run σ fuel cfg = some rs) :
    InvTT rs.model := by
  intro a ha c hc
  rw [(init_run_agents σ fuel cfg rs h a ha).1] at hc
  cases hc

/-- **C10.**  At every step boundary of every run, every cell in any
agent's claimed set is a key of the ownership map: territory additions are
always paired with ownership writes and ownership keys are never removed. -/
theorem C10_territory_in_ownership (σ : RStream) (fuel : ℕ) (cfg : Config)
    (n : ℕ) (rs : RunState) (h : full_run σ fuel cfg n = some rs) :
    ∀ a ∈ rs.model.agents, ∀ c ∈ a.territory, c ∈ tmKeys rs.model.tm := by
  unfold full_run at h
  rcases hinit : init_run σ fuel cfg with - | rs0
  · rw [hinit] at h
    cases h
  · rw [hinit] at h
    simp only [Option.map_some', Option.some.injEq] at h
    subst h
    exact run_steps_InvTT σ n rs0 (init_run_InvTT σ fuel cfg rs0 hinit)

/-- Witness for C10: the one-step 1×1 run. -/
theorem C10_witness :
    full_run exStream0 1 exCfg1 1 = some exRun1 ∧
    (∀ a ∈ exRun1.model.agents, ∀ c ∈ a.territory,
      c ∈ tmKeys exRun1.model.tm) :=
  ⟨by decide,
    C10_territory_in_ownership exStream0 1 exCfg1 1 exRun1 (by decide)⟩

/-! ## C2: warp cells and ownership keys -/

/-- A claim step adds a key only when the destination is not warp, and then
only the destination itself. -/
theorem claim_new_key (a : AgentState) (tm : TerritoryManager) (p : Cell)
    {c : Cell}
    (hc : c ∈ tmKeys (claim_if_not_warp a tm p).2) (hnew : c ∉ tmKeys tm) :
    c = p ∧ p ∉ tm.warp_panels := by
  rw [tmKeys_claim_if_not_warp] at hc
  by_cases hp : p ∈ tm.warp_panels
  · rw [if_pos hp] at hc
    exact absurd hc hnew
  · rw [if_neg hp] at hc
    rcases List.mem_cons.mp hc with rfl | hc
    · exact ⟨rfl, hp⟩
    · exact absurd hc hnew

/-- Ownership keys after the expander's claiming branch, in closed form. -/
theorem expander_claim_keys (σ : RStream) (a : AgentState)
    (tm : TerritoryManager) (i : ℕ) (h3 : ¬(a.move_counter + 1) % 3 = 0)
    (hwarp : expanderDest σ a tm i ∉ tm.warp_panels) :
    tmKeys (expander_random_move σ a tm i).2.1 =
      (get_neighborhood tm.width tm.height (expanderDest σ a tm i) false).reverse ++
        expanderDest σ a tm i :: tmKeys tm := by
  rw [expander_move_claim σ a tm i h3 hwarp, foldl_add_to_territory]
  simp only [tmKeys, TerritoryManager.add_to_territory, List.map_append,
    List.map_map, List.map_cons]
  have hid : (Prod.fst ∘ fun c : Cell => (c, a.unique_id)) = id := rfl
  rw [hid, List.map_id]

/-- **C2, counterexample.**  A one-step run on a 3×3 grid with warp cell
`(1,0)`: the single expander agent moves from `(0,1)` to the non-warp
destination `(1,1)` and its neighbor-claim loop registers the warp cell
`(1,0)` in the ownership map, even though `(1,0)` was not an ownership key
after initialization. -/
theorem C2_counterexample :
    ((full_run exStreamC2 2 exCfgC2 1).map (fun rs =>
      decide ((1, 0) ∈ rs.model.tm.warp_panels) &&
        decide ((1, 0) ∈ tmKeys rs.model.tm)) = some true) ∧
    ((init_run exStreamC2 2 exCfgC2).map (fun rs =>
      decide ((1, 0) ∈ tmKeys rs.model.tm)) = some false) := by decide

/-- **C2, amended.**  For every agent variant and every turn, every cell
the turn newly adds to ownership is either not a warp cell (it is then the
turn's non-warp destination), or it was added by the Expander's
neighbor-claim loop: the agent is an Expander, its destination is not a
warp cell, and the new key lies in the 4-connected neighborhood of that
destination.  Only that loop can register warp cells. -/
theorem C2_nonwarp_keys (σ : RStream) (a : AgentState)
    (tm : TerritoryManager) (i : ℕ) (c : Cell)
    (hc : c ∈ tmKeys (random_move σ a tm i).2.1) (hnew : c ∉ tmKeys tm) :
    c ∉ tm.warp_panels ∨
      (a.kind = .expander ∧ expanderDest σ a tm i ∉ tm.warp_panels ∧
        c ∈ get_neighborhood tm.width tm.height (expanderDest σ a tm i) false) := by
  obtain ⟨k, kind, p0, T, cnt⟩ := a
  rcases kind
  case normal =>
    have hc2 : c ∈ tmKeys (claim_if_not_warp ⟨k, .normal, p0, T, cnt⟩ tm
      (choice (get_neighborhood tm.width tm.height p0 true) (σ i))).2 := hc
    have h2 := claim_new_key ⟨k, .normal, p0, T, cnt⟩ tm
      (choice (get_neighborhood tm.width tm.height p0 true) (σ i)) hc2 hnew
    rw [h2.1]
    exact Or.inl h2.2
  case doubleStep =>
    have hc0 : c ∈ tmKeys
        (double_random_move σ ⟨k, .doubleStep, p0, T, cnt⟩ tm i).2.1 := hc
    simp only [double_random_move] at hc0
    split at hc0
    · exact absurd hc0 hnew
    · split at hc0
      · have hc2 : c ∈ tmKeys (claim_if_not_warp ⟨k, .doubleStep, p0, T, cnt + 1⟩ tm
          (choice (get_neighborhood tm.width tm.height
            (choice (get_neighborhood tm.width tm.height p0 true) (σ i)) true)
            (σ (i + 2)))).2 := hc0
        have h2 := claim_new_key ⟨k, .doubleStep, p0, T, cnt + 1⟩ tm
          (choice (get_neighborhood tm.width tm.height
            (choice (get_neighborhood tm.width tm.height p0 true) (σ i)) true)
            (σ (i + 2))) hc2 hnew
        rw [h2.1]
        exact Or.inl h2.2
      · have hc2 : c ∈ tmKeys (claim_if_not_warp ⟨k, .doubleStep, p0, T, cnt + 1⟩ tm
          (choice (get_neighborhood tm.width tm.height p0 true) (σ i))).2 := hc0
        have h2 := claim_new_key ⟨k, .doubleStep, p0, T, cnt + 1⟩ tm
          (choice (get_neighborhood tm.width tm.height p0 true) (σ i)) hc2 hnew
        rw [h2.1]
        exact Or.inl h2.2
  case expander =>
    have hc2 : c ∈ tmKeys
        (expander_random_move σ ⟨k, .expander, p0, T, cnt⟩ tm i).2.1 := hc
    by_cases h3 : (cnt + 1) % 3 = 0
    · rw [expander_move_skip σ ⟨k, .expander, p0, T, cnt⟩ tm i h3] at hc2
      exact absurd hc2 hnew
    · by_cases hwarp : expanderDest σ ⟨k, .expander, p0, T, cnt⟩ tm i ∈ tm.warp_panels
      · rw [expander_move_warp σ ⟨k, .expander, p0, T, cnt⟩ tm i h3 hwarp] at hc2
        exact absurd hc2 hnew
      · rw [expander_claim_keys σ ⟨k, .expander, p0, T, cnt⟩ tm i h3 hwarp] at hc2
        rcases List.mem_append.mp hc2 with hmem | hmem
        · exact Or.inr ⟨rfl, hwarp, List.mem_reverse.mp hmem⟩
        · rcases List.mem_cons.mp hmem with rfl | hmem
          · exact Or.inl hwarp
          · exact absurd hmem hnew
  case teleport =>
    have hc0 : c ∈ tmKeys
        (teleport_random_move σ ⟨k, .teleport, p0, T, cnt⟩ tm i).2.1 := hc
    simp only [teleport_random_move] at hc0
    split at hc0
    · have hc2 : c ∈ tmKeys (claim_if_not_warp ⟨k, .teleport, p0, T, cnt + 1⟩ tm
        (choice (get_neighborhood tm.width tm.height p0 true) (σ (i + 2)))).2 := hc0
      have h2 := claim_new_key ⟨k, .teleport, p0, T, cnt + 1⟩ tm
        (choice (get_neighborhood tm.width tm.height p0 true) (σ (i + 2))) hc2 hnew
      rw [h2.1]
      exact Or.inl h2.2
    · have hc2 : c ∈ tmKeys (claim_if_not_warp ⟨k, .teleport, p0, T, cnt + 1⟩ tm
        (choice (get_neighborhood tm.width tm.height p0 true) (σ i))).2 := hc0
      have h2 := claim_new_key ⟨k, .teleport, p0, T, cnt + 1⟩ tm
        (choice (get_neighborhood tm.width tm.height p0 true) (σ i)) hc2 hnew
      rw [h2.1]
      exact Or.inl h2.2

/-- Witness for C2 (amended): a normal agent on an empty 1×1 ledger claims
its destination, a fresh non-warp key. -/
theorem C2_witness :
    (0, 0) ∈ tmKeys (random_move exStream0 exAgentC2w exTmC2w 0).2.1 ∧
    (0, 0) ∉ tmKeys exTmC2w ∧
    ((0, 0) ∉ exTmC2w.warp_panels ∨
      (exAgentC2w.kind = .expander ∧
        expanderDest exStream0 exAgentC2w exTmC2w 0 ∉ exTmC2w.warp_panels ∧
        (0, 0) ∈ get_neighborhood exTmC2w.width exTmC2w.height
          (expanderDest exStream0 exAgentC2w exTmC2w 0) false)) :=
  ⟨by decide, by decide,
    C2_nonwarp_keys exStream0 exAgentC2w exTmC2w 0 (0, 0) (by decide) (by decide)⟩

/-! ## C3: activation order -/

theorem count_set_add (l : List ℕ) (i : ℕ) (hi : i < l.length) (b x : ℕ) :
    (l.set i b).count x + (if l.get ⟨i, hi⟩ = x then 1 else 0) =
      l.count x + (if b = x then 1 else 0) := by
  have hd : l.take i ++ l.get ⟨i, hi⟩ :: l.drop (i + 1) = l := by
    rw [List.get_eq_getElem, List.getElem_cons_drop l i hi,
      List.take_append_drop]
  rw [List.set_eq_take_append_cons_drop, if_pos hi]
  conv_rhs => rw [← hd]
  simp only [List.count_append, List.count_cons]
  by_cases h1 : l.get ⟨i, hi⟩ = x <;> by_cases h2 : b = x <;>
    simp [h1, h2] <;> omega

theorem count_listSwap (l : List ℕ) (i j x : ℕ) :
    (listSwap l i j).count x = l.count x := by
  unfold listSwap
  rcases hi : l[i]? with - | a
  · rfl
  · rcases hj : l[j]? with - | b
    · rfl
    · show ((l.set i b).set j a).count x = l.count x
      obtain ⟨hi2, hia⟩ := List.getElem?_eq_some_iff.mp hi
      obtain ⟨hj2, hjb⟩ := List.getElem?_eq_some_iff.mp hj
      have hj3 : j < (l.set i b).length := by
        rw [List.length_set]
        exact hj2
      have h1 := count_set_add (l.set i b) j hj3 a x
      have h2 := count_set_add l i hi2 b x
      have hv : (l.set i b).get ⟨j, hj3⟩ = b := by
        rw [List.get_eq_getElem]
        rcases eq_or_ne i j with rfl | hne
        · rw [List.getElem_set_self]
        · rw [List.getElem_set_ne hne]
          exact hjb
      rw [hv] at h1
      rw [List.get_eq_getElem, hia] at h2
      have h3 := h1.trans h2
      omega

theorem listSwap_perm (l : List ℕ) (i j : ℕ) : (listSwap l i j).Perm l :=
  List.perm_iff_count.mpr (fun x => count_listSwap l i j x)

theorem shuffleAux_perm (σ : RStream) :
    ∀ (k : ℕ) (l : List ℕ) (i : ℕ), ((shuffleAux σ k l i).1).Perm l
  | 0, l, _ => List.Perm.refl l
  | k + 1, l, i =>
    (shuffleAux_perm σ k (listSwap l (k + 1) (σ i % (k + 2))) (i + 1)).trans
      (listSwap_perm l (k + 1) (σ i % (k + 2)))

theorem shuffle_perm (σ : RStream) (l : List ℕ) (i : ℕ) :
    ((shuffle σ l i).1).Perm l :=
  shuffleAux_perm σ (l.length - 1) l i

/-- **C3, counterexample.**  The scheduler is mesa's `RandomActivation`,
which reshuffles the key list each step: on the all-zeros stream a 3×3 run
with two agents activates them in order `[1, 0]` on its first step, not in
the creation order `[0, 1]`. -/
theorem C3_counterexample :
    (full_run exStream0 1 exCfgC3 1).map (fun rs => rs.orders) =
      some [[1, 0]] ∧ [[1, 0]] ≠ [[0, 1]] := ⟨by decide, by decide⟩

/-- **C3, amended.**  Each step first records every agent's pre-move
snapshot — taken from the state before any agent of the step moves, in
creation order — and then activates the agents one by one in a freshly
shuffled order, drawn from the random stream anew each step; the
activation order is a permutation of the creation order, not the creation
order itself. -/
theorem C3_random_activation (σ : RStream) (rs : RunState) :
    (run_step σ rs).history = rs.history ++ [snapshot rs.model] ∧
    snapshot rs.model =
      rs.model.agents.map (fun a => (a.unique_id, a.territory)) ∧
    (run_step σ rs).orders = rs.orders ++
      [(shuffle σ (List.range rs.model.agents.length) rs.idx).1] ∧
    ((shuffle σ (List.range rs.model.agents.length) rs.idx).1).Perm
      (List.range rs.model.agents.length) :=
  ⟨rfl, rfl, rfl, shuffle_perm σ _ _⟩

/-! ## C8: monotone snapshot sizes -/

theorem snapLE_snapshot {st st' : ModelState}
    (h : agentsLE st.agents st'.agents) :
    snapLE (snapshot st) (snapshot st') := by
  refine ⟨by simp [snapshot, h.1], fun j a b ha hb => ?_⟩
  unfold snapshot at ha hb
  rw [List.getElem?_map] at ha hb
  rcases hx : st.agents[j]? with - | x
  · rw [hx] at ha
    cases ha
  · rcases hy : st'.agents[j]? with - | y
    · rw [hy] at hb
      cases hb
    · rw [hx] at ha
      rw [hy] at hb
      simp only [Option.map_some', Option.some.injEq] at ha hb
      subst ha
      subst hb
      obtain ⟨e1, -, e3⟩ := h.2 j x y hx hy
      exact ⟨e1, e3⟩

theorem HistChain_run_step (σ : RStream) (rs : RunState) (h : HistChain rs) :
    HistChain (run_step σ rs) := by
  unfold HistChain at h ⊢
  have hstep : (run_step σ rs).history ++ [snapshot (run_step σ rs).model] =
      (rs.history ++ [snapshot rs.model]) ++
        [snapshot (run_step σ rs).model] := rfl
  rw [hstep]
  refine List.Chain'.append h (List.chain'_singleton _) (fun x hx y hy => ?_)
  rw [List.getLast?_concat] at hx
  have hx2 : snapshot rs.model = x := by simpa using hx
  have hy2 : snapshot (run_step σ rs).model = y := by simpa using hy
  subst hx2
  subst hy2
  exact snapLE_snapshot (schedule_step_stateLE σ rs.model rs.idx).1

theorem run_steps_HistChain (σ : RStream) :
    ∀ (n : ℕ) (rs : RunState), HistChain rs →
      HistChain (run_steps σ rs n)
  | 0, _, h => h
  | n + 1, rs, h =>
    run_steps_HistChain σ n (run_step σ rs) (HistChain_run_step σ rs h)

theorem init_run_history (σ : RStream) (fuel : ℕ) (cfg : Config)
    (rs : RunState) (h : init_run σ fuel cfg = some rs) : rs.history = [] := by
  unfold init_run at h
  rcases hw : init_warp_panels cfg.width cfg.height cfg.numWarpPanels σ fuel ∅ 0
    with - | wi
  · rw [hw] at h
    cases h
  · rw [hw] at h
    simp only [Option.map_some', Option.some.injEq] at h
    subst h
    rfl

theorem full_run_HistChain (σ : RStream) (fuel : ℕ) (cfg : Config) (n : ℕ)
    (rs : RunState) (h : full_run σ fuel cfg n = some rs) : HistChain rs := by
  unfold full_run at h
  rcases hinit : init_run σ fuel cfg with - | rs0
  · rw [hinit] at h
    cases h
  · rw [hinit] at h
    simp only [Option.map_some', Option.some.injEq] at h
    subst h
    refine run_steps_HistChain σ n rs0 ?_
    unfold HistChain
    rw [init_run_history σ fuel cfg rs0 hinit]
    exact List.chain'_singleton _

/-- **C8.**  In every run, for every agent slot and every pair of
consecutive recorded snapshots, the agent identity is the same and the
claimed-set size at the later snapshot is at least the size at the earlier
one: no operation ever removes a cell from an agent's claimed set. -/
theorem C8_sizes_monotone (σ : RStream) (fuel : ℕ) (cfg : Config) (n : ℕ)
    (rs : RunState) (h : full_run σ fuel cfg n = some rs)
    (t j : ℕ) (s1 s2 : List (ℕ × Finset Cell)) (a b : ℕ × Finset Cell)
    (h1 : rs.history[t]? = some s1) (h2 : rs.history[t + 1]? = some s2)
    (ha : s1[j]? = some a) (hb : s2[j]? = some b) :
    a.1 = b.1 ∧ a.2.card ≤ b.2.card := by
  have hchain := full_run_HistChain σ fuel cfg n rs h
  unfold HistChain at hchain
  obtain ⟨ht2, he2⟩ := List.getElem?_eq_some_iff.mp h2
  obtain ⟨ht1, he1⟩ := List.getElem?_eq_some_iff.mp h1
  have hlen : (rs.history ++ [snapshot rs.model]).length =
      rs.history.length + 1 := by simp
  have hb1 : t < (rs.history ++ [snapshot rs.model]).length - 1 := by omega
  have hrel := List.chain'_iff_get.mp hchain t hb1
  have hg1 : (rs.history ++ [snapshot rs.model]).get ⟨t, by omega⟩ = s1 := by
    rw [List.get_eq_getElem, List.getElem_append_left ht1]
    exact he1
  have hg2 : (rs.history ++ [snapshot rs.model]).get ⟨t + 1, by omega⟩ = s2 := by
    rw [List.get_eq_getElem, List.getElem_append_left ht2]
    exact he2
  rw [hg1, hg2] at hrel
  obtain ⟨e1, e2⟩ := hrel.2 j a b ha hb
  exact ⟨e1, Finset.card_le_card e2⟩

/-- Witness for C8: the two snapshots of the two-step 1×1 run. -/
theorem C8_witness :
    full_run exStream0 1 exCfg1 2 = some exRun2 ∧
    ((0 : ℕ), (∅ : Finset Cell)).1 = ((0 : ℕ), ({(0, 0)} : Finset Cell)).1 ∧
    ((0 : ℕ), (∅ : Finset Cell)).2.card ≤
      ((0 : ℕ), ({(0, 0)} : Finset Cell)).2.card :=
  ⟨by decide,
    C8_sizes_monotone exStream0 1 exCfg1 2 exRun2 (by decide) 0 0
      [(0, ∅)] [(0, {(0, 0)})] (0, ∅) (0, {(0, 0)})
      (by decide) (by decide) (by decide) (by decide)⟩

/-! ## C9: the warp-panel sampling loop -/

theorem drawsFrom_succ (w h : ℕ) (σ : RStream) (j len : ℕ) :
    drawsFrom w h σ j (len + 1) =
      insert (randrange w (σ (2 * j)), randrange h (σ (2 * j + 1)))
        (drawsFrom w h σ (j + 1) len) := rfl

theorem warpLoop_sound (w h n : ℕ) (σ : RStream) (hw : 0 < w) (hh : 0 < h) :
    ∀ (N j : ℕ) (s : Finset Cell), s.card ≤ n →
      n ≤ (s ∪ drawsFrom w h σ j N).card →
      (∀ c ∈ s, c.1 < w ∧ c.2 < h) →
      ∃ s2 i2, init_warp_panels w h n σ N s (2 * j) = some (s2, i2) ∧
        s2.card = n ∧ ∀ c ∈ s2, c.1 < w ∧ c.2 < h
  | 0, j, s, hle, hge, hbound => by
    have h0 : (s ∪ drawsFrom w h σ j 0).card = s.card := by
      simp [drawsFrom]
    have hcard : s.card = n := le_antisymm hle (h0 ▸ hge)
    refine ⟨s, 2 * j, ?_, hcard, hbound⟩
    unfold init_warp_panels
    rw [if_pos (hcard ▸ le_refl n)]
  | N + 1, j, s, hle, hge, hbound => by
    by_cases hdone : n ≤ s.card
    · have hcard : s.card = n := le_antisymm hle hdone
      refine ⟨s, 2 * j, ?_, hcard, hbound⟩
      unfold init_warp_panels
      rw [if_pos hdone]
    · have hstep : init_warp_panels w h n σ (N + 1) s (2 * j) =
          init_warp_panels w h n σ N
            (insert (randrange w (σ (2 * j)), randrange h (σ (2 * j + 1))) s)
            (2 * j + 2) := by
        show (if n ≤ s.card then some (s, 2 * j)
          else init_warp_panels w h n σ N
            (insert (randrange w (σ (2 * j)), randrange h (σ (2 * j + 1))) s)
            (2 * j + 2)) = _
        rw [if_neg hdone]
      have hunion :
          insert (randrange w (σ (2 * j)), randrange h (σ (2 * j + 1))) s ∪
              drawsFrom w h σ (j + 1) N =
            s ∪ drawsFrom w h σ j (N + 1) := by
        rw [Finset.insert_union, drawsFrom_succ, Finset.union_insert]
      have hge2 : n ≤
          (insert (randrange w (σ (2 * j)), randrange h (σ (2 * j + 1))) s ∪
            drawsFrom w h σ (j + 1) N).card := by
        rw [hunion]
        exact hge
      have hle2 :
          (insert (randrange w (σ (2 * j)), randrange h (σ (2 * j + 1))) s).card
            ≤ n := by
        have hc := Finset.card_insert_le
          (randrange w (σ (2 * j)), randrange h (σ (2 * j + 1))) s
        omega
      have hbound2 : ∀ c ∈
          insert (randrange w (σ (2 * j)), randrange h (σ (2 * j + 1))) s,
          c.1 < w ∧ c.2 < h := by
        intro c hc
        rcases Finset.mem_insert.mp hc with rfl | hc
        · exact ⟨Nat.mod_lt _ hw, Nat.mod_lt _ hh⟩
        · exact hbound c hc
      obtain ⟨s2, i2, heq, hca, hbo⟩ := warpLoop_sound w h n σ hw hh N (j + 1)
        (insert (randrange w (σ (2 * j)), randrange h (σ (2 * j + 1))) s)
        hle2 hge2 hbound2
      have hidx : 2 * j + 2 = 2 * (j + 1) := by ring
      rw [hidx] at hstep
      exact ⟨s2, i2, hstep.trans heq, hca, hbo⟩

/-- **C9.**  Whenever the random stream offers at least `n` distinct cells
among its first `N` draw pairs — which a fair random source eventually does
for every `n` up to the number of grid cells, including `n = w*h - 1` —
the warp-panel sampling loop terminates within `N` iterations, and the set
it fixes holds exactly the requested number of distinct in-bounds cells. -/
theorem C9_warp_loop_terminates (w h n N : ℕ) (σ : RStream) (hw : 0 < w)
    (hh : 0 < h) (hn : n ≤ (drawsFrom w h σ 0 N).card) :
    ∃ s i, init_warp_panels w h n σ N ∅ 0 = some (s, i) ∧
      s.card = n ∧ ∀ c ∈ s, c.1 < w ∧ c.2 < h := by
  obtain ⟨s, i, heq, hca, hbo⟩ := warpLoop_sound w h n σ hw hh N 0 ∅
    (Nat.zero_le n) (by rw [Finset.empty_union]; exact hn)
    (fun c hc => absurd hc (Finset.not_mem_empty c))
  exact ⟨s, i, heq, hca, hbo⟩

/-- Witness for C9: the extreme case `count = total cells - 1` on a 2×2
grid, with a stream whose first four draw pairs enumerate the whole grid. -/
theorem C9_witness :
    (0 < 2 ∧ 3 ≤ (drawsFrom 2 2 exStreamC9 0 4).card) ∧
    (∃ s i, init_warp_panels 2 2 3 exStreamC9 4 ∅ 0 = some (s, i) ∧
      s.card = 3 ∧ ∀ c ∈ s, c.1 < 2 ∧ c.2 < 2) :=
  ⟨⟨by decide, by decide⟩,
    C9_warp_loop_terminates 2 2 3 4 exStreamC9 (by decide) (by decide)
      (by decide)⟩

/-! ## C5: determinism -/

/-- **C5.**  The whole run is a function of the draw stream (the seed) and
the configuration: two runs of the same stream and configuration yield the
same ownership map, the same snapshot history (hence the same per-agent
claimed-set sizes at every step), and indeed identical final states. -/
theorem C5_determinism (σ : RStream) (fuel : ℕ) (cfg : Config) (n : ℕ)
    (r1 r2 : RunState) (h1 : full_run σ fuel cfg n = some r1)
    (h2 : full_run σ fuel cfg n = some r2) :
    r1.model.tm.territory_map = r2.model.tm.territory_map ∧
    r1.history = r2.history ∧ r1 = r2 := by
  have h := Option.some.inj (h1.symm.trans h2)
  subst h
  exact ⟨rfl, rfl, rfl⟩

/-- Witness for C5: two identical 1×1 runs. -/
theorem C5_witness :
    full_run exStream0 1 exCfg1 1 = some exRun1 ∧
    exRun1.model.tm.territory_map = exRun1.model.tm.territory_map ∧
    exRun1.history = exRun1.history :=
  have h : full_run exStream0 1 exCfg1 1 = some exRun1 := by decide
  ⟨h, (C5_determinism exStream0 1 exCfg1 1 exRun1 exRun1 h h).1,
    (C5_determinism exStream0 1 exCfg1 1 exRun1 exRun1 h h).2.1⟩

/-! ## C4: the initial claim and the single-agent scenario -/

theorem run_steps_succ (σ : RStream) :
    ∀ (n : ℕ) (rs : RunState),
      run_steps σ rs (n + 1) = run_step σ (run_steps σ rs n)
  | 0, _ => rfl
  | n + 1, rs => by
    show run_steps σ (run_step σ rs) (n + 1) = _
    rw [run_steps_succ σ n (run_step σ rs)]
    rfl

theorem normal_move_no_warp (σ : RStream) (a : AgentState)
    (tm : TerritoryManager) (i : ℕ) (hwarp : tm.warp_panels = ∅) :
    normal_random_move σ a tm i =
      ({ a with pos := choice (get_neighborhood tm.width tm.height a.pos true) (σ i), territory := insert (choice (get_neighborhood tm.width tm.height a.pos true) (σ i)) a.territory },
        tm.add_to_territory
          (choice (get_neighborhood tm.width tm.height a.pos true) (σ i))
          a.unique_id,
        i + 1) := by
  unfold normal_random_move claim_if_not_warp
  rw [hwarp]
  simp

theorem run_step_single (σ : RStream) (rs : RunState) (k : ℕ) (p0 : Cell)
    (T : Finset Cell) (cnt : ℕ)
    (hag : rs.model.agents = [⟨k, .normal, p0, T, cnt⟩])
    (hwarp : rs.model.tm.warp_panels = ∅) :
    (run_step σ rs).model.agents = [⟨k, .normal,
        choice (get_neighborhood rs.model.tm.width rs.model.tm.height p0 true)
          (σ rs.idx),
        insert (choice (get_neighborhood rs.model.tm.width rs.model.tm.height
          p0 true) (σ rs.idx)) T, cnt⟩] ∧
    (run_step σ rs).model.tm.warp_panels = ∅ := by
  obtain ⟨⟨ags, tm⟩, hist, ords, idx⟩ := rs
  dsimp only at hag hwarp ⊢
  subst hag
  constructor
  · show [(random_move σ ⟨k, .normal, p0, T, cnt⟩ tm idx).1] = _
    rw [show random_move σ ⟨k, .normal, p0, T, cnt⟩ tm idx =
      normal_random_move σ ⟨k, .normal, p0, T, cnt⟩ tm idx from rfl]
    rw [normal_move_no_warp σ ⟨k, .normal, p0, T, cnt⟩ tm idx hwarp]
  · show (random_move σ ⟨k, .normal, p0, T, cnt⟩ tm idx).2.1.warp_panels = ∅
    rw [show random_move σ ⟨k, .normal, p0, T, cnt⟩ tm idx =
      normal_random_move σ ⟨k, .normal, p0, T, cnt⟩ tm idx from rfl]
    rw [normal_move_no_warp σ ⟨k, .normal, p0, T, cnt⟩ tm idx hwarp]
    exact hwarp

theorem single_normal_run (σ : RStream) (rs : RunState) (k : ℕ) (p0 : Cell)
    (T : Finset Cell) (cnt : ℕ)
    (hag : rs.model.agents = [⟨k, .normal, p0, T, cnt⟩])
    (hwarp : rs.model.tm.warp_panels = ∅) :
    ∀ m, ∃ p2 : Cell,
      (run_steps σ rs m).model.agents =
        [⟨k, .normal, p2, T ∪ visitedCells σ rs m, cnt⟩] ∧
      (run_steps σ rs m).model.tm.warp_panels = ∅ := by
  intro m
  induction m with
  | zero =>
    refine ⟨p0, ?_, hwarp⟩
    show rs.model.agents = _
    rw [hag]
    rw [show visitedCells σ rs 0 = ∅ from rfl, Finset.union_empty]
  | succ m ih =>
    obtain ⟨p2, hag2, hwarp2⟩ := ih
    obtain ⟨hag3, hwarp3⟩ := run_step_single σ (run_steps σ rs m) k p2
      (T ∪ visitedCells σ rs m) cnt hag2 hwarp2
    rw [run_steps_succ σ m rs]
    refine ⟨choice (get_neighborhood (run_steps σ rs m).model.tm.width
      (run_steps σ rs m).model.tm.height p2 true)
      (σ (run_steps σ rs m).idx), ?_, hwarp3⟩
    rw [hag3]
    have hpos : nthAgentPos σ rs (m + 1) =
        choice (get_neighborhood (run_steps σ rs m).model.tm.width
          (run_steps σ rs m).model.tm.height p2 true)
          (σ (run_steps σ rs m).idx) := by
      have hdef : nthAgentPos σ rs (m + 1) =
          ((run_steps σ rs (m + 1)).model.agents.map AgentState.pos).headD
            (0, 0) := rfl
      rw [hdef, run_steps_succ σ m rs, hag3]
      simp only [List.map_cons, List.map_nil, List.headD_cons]
    rw [show visitedCells σ rs (m + 1) =
      insert (nthAgentPos σ rs (m + 1)) (visitedCells σ rs m) from rfl]
    rw [hpos, Finset.union_insert]

theorem visitedCells_card_le (σ : RStream) (rs : RunState) :
    ∀ m, (visitedCells σ rs m).card ≤ m
  | 0 => by
    rw [show visitedCells σ rs 0 = ∅ from rfl]
    simp
  | m + 1 => by
    have h := visitedCells_card_le σ rs m
    have h2 := Finset.card_insert_le (nthAgentPos σ rs (m + 1))
      (visitedCells σ rs m)
    show (insert (nthAgentPos σ rs (m + 1)) (visitedCells σ rs m)).card ≤ m + 1
    omega

/-- **C4, counterexample.**  On a 1×1 grid whose only cell is a warp panel,
the created agent's starting cell is recorded in the ledger, but the
agent's own claimed-cell set is left empty by initialization — the starting
cell is *not* counted in it, contradicting the claim. -/
theorem C4_counterexample :
    ((init_run exStream0 1 exCfgW).map (fun rs =>
      decide (∀ a ∈ rs.model.agents, a.pos ∈ a.territory)) = some false) ∧
    ((init_run exStream0 1 exCfgW).map
      (fun rs => rs.model.agents.length) = some 1) := by decide

/-- **C4, amended.**  Initialization claims every agent's uniformly random
starting cell in the ledger's ownership — even if it is a warp cell — but
does not add it to the agent's own claimed-cell set, which starts empty.
Consequently, a single Standard agent on a warp-free grid run for `m`
steps has claimed-set equal to the set of distinct cells visited by its
`m` moves (the initial cell only counts if revisited), of size at most
`m` — in particular at most 4 after 4 steps, not `steps + 1`. -/
theorem C4_initial_claim (σ : RStream) (fuel : ℕ) (cfg : Config)
    (rs : RunState) (hinit : init_run σ fuel cfg = some rs) :
    (∀ a ∈ rs.model.agents, a.territory = ∅ ∧ a.pos ∈ tmKeys rs.model.tm) ∧
    (∀ (k : ℕ) (q : Cell) (cnt : ℕ),
      rs.model.agents = [⟨k, .normal, q, ∅, cnt⟩] →
      rs.model.tm.warp_panels = ∅ → ∀ m, ∃ p2 : Cell,
        (run_steps σ rs m).model.agents =
          [⟨k, .normal, p2, visitedCells σ rs m, cnt⟩] ∧
        (visitedCells σ rs m).card ≤ m) := by
  refine ⟨init_run_agents σ fuel cfg rs hinit, ?_⟩
  intro k q cnt hag hwarp m
  obtain ⟨p2, hag2, -⟩ := single_normal_run σ rs k q ∅ cnt hag hwarp m
  rw [Finset.empty_union] at hag2
  exact ⟨p2, hag2, visitedCells_card_le σ rs m⟩

/-- Witness for C4 (amended): the 1×1 warp-start run (ownership records the
warp starting cell, territory stays empty), and the warp-free 1×1 run for
4 steps (claimed set = visited cells, size ≤ 4). -/
theorem C4_witness :
    init_run exStream0 1 exCfgW = some exInitW ∧
    (∀ a ∈ exInitW.model.agents,
      a.territory = ∅ ∧ a.pos ∈ tmKeys exInitW.model.tm) ∧
    init_run exStream0 1 exCfg1 = some exInit1 ∧
    (∃ p2 : Cell, (run_steps exStream0 exInit1 4).model.agents =
        [⟨0, .normal, p2, visitedCells exStream0 exInit1 4, 0⟩] ∧
      (visitedCells exStream0 exInit1 4).card ≤ 4) :=
  have h1 : init_run exStream0 1 exCfgW = some exInitW := by decide
  have h2 : init_run exStream0 1 exCfg1 = some exInit1 := by decide
  ⟨h1, (C4_initial_claim exStream0 1 exCfgW exInitW h1).1, h2,
    (C4_initial_claim exStream0 1 exCfg1 exInit1 h2).2 0 (0, 0) 0
      (by decide) (by decide) 4⟩

end TerritoryGame
